import Mathlib

/-!
Verification development for the DocFill docx-xml engine
(lib/agents/utils/docx-xml.ts).

The engine's state that the replacement loop reads and mutates is the
ordered sequence of text-leaf contents (the `text` fields of the
`TextNodeHandle`s, kept in sync with the XML tree by `updateNodeText`).
We embed that state as a `List (List Char)` — one entry per text leaf,
in document order — and embed the operations `buildVirtualTextMap`,
`applyReplacement` and `findAndReplaceSequential` over it.  The DOCX
container (JSZip) is embedded as an association list of named entries,
and the parsed XML (fast-xml-parser with `preserveOrder: true`) as an
ordered tree of tagged elements and text leaves.
-/

namespace DocFill

/-- Strings are embedded as lists of characters so that the substring
operations of the engine (`indexOf`, `substring`) become `List` operations. -/
abbrev Str := List Char

/-- Coercion from a Lean string literal to the embedded string type. -/
def strOf (s : String) : Str := s.toList

/-! ### Document package (JSZip model)

JSZip stores a mutable set of named entries.  The engine uses
`zip.file(name)` (lookup) and `zip.file(name, data)` (insert-or-replace),
and `generateAsync` serializes the current entries.  We model the package
as an association list of `(name, content)` pairs; `generateAsync` is the
identity on this part-level view (claim C9 is about part contents). -/

abbrev Zip := List (String × String)

/-- Model of `zip.file(name)`: the content of the named entry, if present. -/
def zipFile (z : Zip) (name : String) : Option String :=
  (z.find? (fun e => e.1 == name)).map (fun e => e.2)

/-- Model of `zip.file(name, data)`: replace the named entry's content in
place if present, otherwise append a new entry. -/
def zipSet (z : Zip) (name : String) (data : String) : Zip :=
  if z.any (fun e => e.1 == name) then
    z.map (fun e => if e.1 == name then (e.1, data) else e)
  else
    z ++ [(name, data)]

/-! ### Parsed XML tree (fast-xml-parser `preserveOrder: true` shape)

With `preserveOrder: true` the parsed JSON is an ordered list of
single-key tagged objects; text content appears as objects whose key is
`#text`.  We embed this as a tagged-variant tree. -/

/-- Order-preserving XML tree node: an element (tag plus ordered children;
attributes are carried under the `:@` key, which `walkPreserveOrder` skips,
so they are irrelevant to the text-leaf index) or a raw text leaf. -/
inductive XNode where
  | elem (tag : String) (children : List XNode)
  | textLeaf (s : Str)

/-- Text content of a direct child of a `w:t` element, when that child is a
`#text` object (mirrors the `child["#text"] !== undefined` test). -/
def wtText : XNode → Option Str
  | XNode.textLeaf s => some s
  | XNode.elem _ _ => none

/-- Model of `walkPreserveOrder`: collect, in traversal order, the text of
every `#text` child of every `w:t` element.  For a `w:t` element only its
direct `#text` children are collected (the source does not recurse into
`w:t`); every other element is recursed into; attributes are skipped. -/
def collectNodes : List XNode → List Str
  | [] => []
  | XNode.elem tag children :: rest =>
      (if tag = "w:t" then children.filterMap wtText else collectNodes children)
        ++ collectNodes rest
  | XNode.textLeaf _ :: rest => collectNodes rest

/-- Model of `DocxContent`.  `textNodes` keeps only the per-handle text
(the engine reads and writes handles through `updateNodeText`, which keeps
the tree and the cached text in sync, so the leaf-text sequence is the
engine-visible state). -/
structure DocxContent where
  zip : Zip
  json : List XNode
  textNodes : List Str
  fullText : Str
  xmlString : String

/-- Model of `extractDocxContent`.  The external XML parser is passed in as
a function `parse`; the zip lookup, the missing-entry failure and the
text-node walk follow the source.  `fullText` carries the `[i]` markers of
the source. -/
def extractDocxContent (parse : String → List XNode) (buffer : Zip) :
    Except String DocxContent :=
  match zipFile buffer "word/document.xml" with
  | none => Except.error "Invalid DOCX file (word/document.xml missing)"
  | some xmlString =>
    let json := parse xmlString
    let textNodes := collectNodes json
    let fullText :=
      (textNodes.mapIdx fun i t => ('[' :: (toString i).toList) ++ ']' :: t).flatten
    Except.ok { zip := buffer, json := json, textNodes := textNodes,
                fullText := fullText, xmlString := xmlString }

/-- Model of `rebuildDocx`: serialize the (possibly mutated) tree with the
externally supplied builder and write it back at `word/document.xml`; the
relationship validation steps of the source only read the zip and log, so
the produced package is the zip with exactly that one entry updated. -/
def rebuildDocx (buildXml : List XNode → String) (content : DocxContent) : Zip :=
  let newXml := buildXml content.json
  zipSet content.zip "word/document.xml" newXml

/-! ### Virtual text and node map -/

/-- Entry of the node map: the half-open span `[start, stop)` that leaf
`nodeIndex` occupies in the virtual text (`end` in the source; renamed
`stop` because `end` is a Lean keyword). -/
structure MapEntry where
  start : Nat
  stop : Nat
  nodeIndex : Nat
deriving DecidableEq

/-- Cursor-threading loop of `buildVirtualTextMap` that builds the node map:
each leaf contributes the entry `(cursor, cursor + len, idx)`. -/
def buildNodeMapAux : List Str → Nat → Nat → List MapEntry
  | [], _, _ => []
  | t :: ts, cursor, idx =>
      ⟨cursor, cursor + t.length, idx⟩ :: buildNodeMapAux ts (cursor + t.length) (idx + 1)

/-- Model of `buildVirtualTextMap`: the concatenation of all leaf texts in
order, plus the offset map. -/
def buildVirtualTextMap (textNodes : List Str) : Str × List MapEntry :=
  (textNodes.flatten, buildNodeMapAux textNodes 0 0)

/-- Model of JavaScript `hay.indexOf(pat, start)`: the start position is
clamped to the string length, and the result is the smallest index at or
after it where `pat` occurs (`none` for JavaScript's `-1`). -/
def jsIndexOf (hay pat : Str) (start : Nat) : Option Nat :=
  let pos := min start hay.length
  (((List.range (hay.length + 1)).filter
      (fun i => decide (pos ≤ i) && pat.isPrefixOf (hay.drop i)))).head?

/-- Model of `updateNodeText`: overwrite the text of the leaf at `idx`
(the source writes through the handle into the tree and the cached text;
both are the single list entry here). -/
def updateNodeText (textNodes : List Str) (idx : Nat) (newText : Str) : List Str :=
  textNodes.set idx newText

/-- Model of `applyReplacement`: locate the start and end leaves of the
matched span via the node map and splice.  `List.getD _ _ []` totalizes the
source's `content.textNodes[entry.nodeIndex]`, which is always in range for
maps produced by `buildVirtualTextMap`.  When the located start and end
entries are missing the source logs and returns without mutating. -/
def applyReplacement (textNodes : List Str) (nodeMap : List MapEntry)
    (matchStart matchEnd : Nat) (replacement : Str) : List Str :=
  match nodeMap.find? (fun m => decide (m.start ≤ matchStart) && decide (matchStart < m.stop)),
        nodeMap.find? (fun m => decide (m.start < matchEnd) && decide (matchEnd ≤ m.stop)) with
  | some startNodeEntry, some endNodeEntry =>
    let startText := textNodes.getD startNodeEntry.nodeIndex []
    let endText := textNodes.getD endNodeEntry.nodeIndex []
    let localStart := matchStart - startNodeEntry.start
    let localEnd := matchEnd - endNodeEntry.start
    if startNodeEntry.nodeIndex = endNodeEntry.nodeIndex then
      updateNodeText textNodes startNodeEntry.nodeIndex
        (startText.take localStart ++ replacement ++ startText.drop localEnd)
    else
      let l1 := updateNodeText textNodes startNodeEntry.nodeIndex
        (startText.take localStart ++ replacement)
      let l2 := updateNodeText l1 endNodeEntry.nodeIndex (endText.drop localEnd)
      (List.range' (startNodeEntry.nodeIndex + 1)
          (endNodeEntry.nodeIndex - (startNodeEntry.nodeIndex + 1))).foldl
        (fun ls i => updateNodeText ls i []) l2
  | _, _ => textNodes

/-! ### Sequential find and replace -/

/-- Model of a `SlotReplacement` request. -/
structure SlotReplacement where
  originalText : Str
  filledValue : Str

/-- The `while (queue.length > 0)` loop of `findAndReplaceSequential`:
every iteration pops the head request, so the loop is structural recursion
on the queue.  Returns the final leaf texts and the replacement count. -/
def frRun : List Str → List SlotReplacement → Nat → Nat → List Str × Nat
  | textNodes, [], _, replacementCount => (textNodes, replacementCount)
  | textNodes, current :: rest, searchCursor, replacementCount =>
    let vm := buildVirtualTextMap textNodes
    match jsIndexOf vm.1 current.originalText searchCursor with
    | none => frRun textNodes rest searchCursor replacementCount
    | some matchIndex =>
      let matchEnd := matchIndex + current.originalText.length
      if current.originalText ≠ current.filledValue then
        frRun (applyReplacement textNodes vm.2 matchIndex matchEnd current.filledValue)
          rest (matchIndex + current.originalText.length) (replacementCount + 1)
      else
        frRun textNodes rest matchEnd replacementCount

/-- Model of `findAndReplaceSequential`: run the queue from cursor 0 and
count 0.  The first component is the final leaf-text state, the second the
returned replacement count. -/
def findAndReplaceSequential (textNodes : List Str) (slots : List SlotReplacement) :
    List Str × Nat :=
  frRun textNodes slots 0 0

/-- Loop state of `findAndReplaceSequential`, for stating per-iteration
properties: current leaf texts, remaining queue, cursor, and count. -/
structure FRState where
  leaves : List Str
  queue : List SlotReplacement
  searchCursor : Nat
  replacementCount : Nat

/-- One iteration of the `findAndReplaceSequential` loop (identity on an
empty queue, which is the loop exit). -/
def frStep (s : FRState) : FRState :=
  match s.queue with
  | [] => s
  | current :: rest =>
    let vm := buildVirtualTextMap s.leaves
    match jsIndexOf vm.1 current.originalText s.searchCursor with
    | none => ⟨s.leaves, rest, s.searchCursor, s.replacementCount⟩
    | some matchIndex =>
      let matchEnd := matchIndex + current.originalText.length
      if current.originalText ≠ current.filledValue then
        ⟨applyReplacement s.leaves vm.2 matchIndex matchEnd current.filledValue,
         rest, matchIndex + current.originalText.length, s.replacementCount + 1⟩
      else
        ⟨s.leaves, rest, matchEnd, s.replacementCount⟩

/-- Per-request match outcome of the loop: for each request, in order, the
virtual-text offset at which its `originalText` was found (`none` for the
not-found outcome the source logs as `slot-not-found`). -/
def frTrace : List Str → List SlotReplacement → Nat → List (Option Nat)
  | _, [], _ => []
  | textNodes, current :: rest, searchCursor =>
    let vm := buildVirtualTextMap textNodes
    match jsIndexOf vm.1 current.originalText searchCursor with
    | none => none :: frTrace textNodes rest searchCursor
    | some matchIndex =>
      let matchEnd := matchIndex + current.originalText.length
      if current.originalText ≠ current.filledValue then
        some matchIndex ::
          frTrace (applyReplacement textNodes vm.2 matchIndex matchEnd current.filledValue)
            rest (matchIndex + current.originalText.length)
      else
        some matchIndex :: frTrace textNodes rest matchEnd

/-- Specification-side measure for the returned count: the number of
requests whose processing step actually changed the virtual text.  It
mirrors the loop's control flow and compares the virtual text before and
after each step (no-op and not-found steps never change it and add 0). -/
def actualChangeCount : List Str → List SlotReplacement → Nat → Nat
  | _, [], _ => 0
  | textNodes, current :: rest, searchCursor =>
    let vm := buildVirtualTextMap textNodes
    match jsIndexOf vm.1 current.originalText searchCursor with
    | none => actualChangeCount textNodes rest searchCursor
    | some matchIndex =>
      let matchEnd := matchIndex + current.originalText.length
      if current.originalText ≠ current.filledValue then
        let textNodes2 :=
          applyReplacement textNodes vm.2 matchIndex matchEnd current.filledValue
        (if textNodes2.flatten ≠ textNodes.flatten then 1 else 0) +
          actualChangeCount textNodes2 rest (matchIndex + current.originalText.length)
      else
        actualChangeCount textNodes rest matchEnd

/-! ### Offset arithmetic on the virtual text -/

/-- Cumulative virtual-text offset of leaf `k`: the length of the
concatenation of the first `k` leaf texts. -/
def prefixLen (leaves : List Str) (k : Nat) : Nat :=
  ((leaves.take k).flatten).length

theorem prefixLen_zero (leaves : List Str) : prefixLen leaves 0 = 0 := rfl

theorem prefixLen_nil (k : Nat) : prefixLen [] k = 0 := by
  simp [prefixLen]

theorem prefixLen_cons_succ (t : Str) (ts : List Str) (k : Nat) :
    prefixLen (t :: ts) (k + 1) = t.length + prefixLen ts k := by
  simp [prefixLen, List.take_succ_cons]

theorem prefixLen_cons_one (t : Str) (ts : List Str) :
    prefixLen (t :: ts) 1 = t.length := by
  simp [prefixLen_cons_succ, prefixLen_zero]

theorem prefixLen_le (leaves : List Str) {j k : Nat} (h : j ≤ k) :
    prefixLen leaves j ≤ prefixLen leaves k := by
  have hd : leaves.take k = leaves.take j ++ (leaves.take k).drop j := by
    conv_lhs => rw [← List.take_append_drop j (leaves.take k)]
    rw [List.take_take, min_eq_left h]
  unfold prefixLen
  rw [hd, List.flatten_append, List.length_append]
  exact Nat.le_add_right _ _

theorem prefixLen_length (leaves : List Str) :
    prefixLen leaves leaves.length = leaves.flatten.length := by
  simp [prefixLen, List.take_length]

theorem getD_eq_getElem (leaves : List Str) {k : Nat} (h : k < leaves.length) :
    leaves.getD k [] = leaves[k] := by
  rw [List.getD_eq_getElem?_getD, List.getElem?_eq_getElem h, Option.getD_some]

theorem prefixLen_succ_of_lt (leaves : List Str) {k : Nat} (h : k < leaves.length) :
    prefixLen leaves (k + 1) = prefixLen leaves k + (leaves.getD k []).length := by
  have htake : leaves.take (k + 1) = leaves.take k ++ [leaves.getD k []] := by
    rw [List.take_succ, List.getElem?_eq_getElem h, getD_eq_getElem leaves h]
    rfl
  unfold prefixLen
  rw [htake, List.flatten_append, List.length_append]
  congr 1
  simp

theorem leaves_decomp (leaves : List Str) {k : Nat} (h : k < leaves.length) :
    leaves = leaves.take k ++ leaves.getD k [] :: leaves.drop (k + 1) := by
  rw [getD_eq_getElem leaves h]
  conv_lhs => rw [← List.take_append_drop k leaves]
  rw [List.drop_eq_getElem_cons h]

theorem flatten_decomp (leaves : List Str) {k : Nat} (h : k < leaves.length) :
    leaves.flatten =
      (leaves.take k).flatten ++ leaves.getD k [] ++ (leaves.drop (k + 1)).flatten := by
  conv_lhs => rw [leaves_decomp leaves h]
  simp [List.flatten_append]

theorem take_flatten_of_between (leaves : List Str) {k ms : Nat}
    (hk : k < leaves.length) (h1 : prefixLen leaves k ≤ ms)
    (h2 : ms ≤ prefixLen leaves (k + 1)) :
    leaves.flatten.take ms =
      (leaves.take k).flatten ++ (leaves.getD k []).take (ms - prefixLen leaves k) := by
  have hpl : prefixLen leaves (k + 1) = prefixLen leaves k + (leaves.getD k []).length :=
    prefixLen_succ_of_lt leaves hk
  conv_lhs => rw [flatten_decomp leaves hk]
  rw [List.append_assoc, List.take_append_eq_append_take,
      List.take_of_length_le (le_of_eq_of_le rfl h1), List.take_append_eq_append_take]
  have h3 : ms - ((leaves.take k).flatten).length - (leaves.getD k []).length = 0 := by
    have : ((leaves.take k).flatten).length = prefixLen leaves k := rfl
    omega
  rw [h3, List.take_zero, List.append_nil]
  rfl

theorem drop_flatten_of_between (leaves : List Str) {k me : Nat}
    (hk : k < leaves.length) (h1 : prefixLen leaves k ≤ me)
    (h2 : me ≤ prefixLen leaves (k + 1)) :
    leaves.flatten.drop me =
      (leaves.getD k []).drop (me - prefixLen leaves k) ++ (leaves.drop (k + 1)).flatten := by
  have hpl : prefixLen leaves (k + 1) = prefixLen leaves k + (leaves.getD k []).length :=
    prefixLen_succ_of_lt leaves hk
  have hplen : ((leaves.take k).flatten).length = prefixLen leaves k := rfl
  conv_lhs => rw [flatten_decomp leaves hk]
  rw [List.append_assoc, List.drop_append_eq_append_drop, List.drop_append_eq_append_drop]
  rw [List.drop_eq_nil_of_le (by rw [hplen]; exact h1), List.nil_append, hplen]
  have h4 : me - prefixLen leaves k - (leaves.getD k []).length = 0 := by omega
  rw [h4, List.drop_zero]

/-! ### Facts about the `indexOf` model -/

theorem isPrefixOf_eq_append : ∀ (p l : Str), p.isPrefixOf l = true →
    l = p ++ l.drop p.length
  | [], l, _ => by simp
  | a :: p, [], h => by simp [List.isPrefixOf] at h
  | a :: p, b :: l, h => by
    rw [List.isPrefixOf, Bool.and_eq_true] at h
    have hab : a = b := beq_iff_eq.mp h.1
    have := isPrefixOf_eq_append p l h.2
    simp [hab]
    conv_lhs => rw [this]

theorem isPrefixOf_length_le {p l : Str} (h : p.isPrefixOf l = true) :
    p.length ≤ l.length := by
  have := isPrefixOf_eq_append p l h
  conv_rhs => rw [this]
  rw [List.length_append]
  exact Nat.le_add_right _ _

theorem head?_filter_mem {α : Type} {p : α → Bool} {l : List α} {m : α}
    (h : (l.filter p).head? = some m) : m ∈ l ∧ p m = true := by
  cases hl : l.filter p with
  | nil => rw [hl] at h; simp at h
  | cons a t =>
    rw [hl] at h
    simp only [List.head?_cons, Option.some.injEq] at h
    subst h
    have hmem : a ∈ l.filter p := by rw [hl]; exact List.mem_cons_self _ _
    exact List.mem_filter.mp hmem

theorem jsIndexOf_some {hay pat : Str} {start m : Nat}
    (h : jsIndexOf hay pat start = some m) :
    min start hay.length ≤ m ∧ m ≤ hay.length ∧ pat.isPrefixOf (hay.drop m) = true := by
  simp only [jsIndexOf] at h
  obtain ⟨hrange, hpred⟩ := head?_filter_mem h
  rw [Bool.and_eq_true, decide_eq_true_iff] at hpred
  exact ⟨hpred.1, by have := List.mem_range.mp hrange; omega, hpred.2⟩

theorem jsIndexOf_matchEnd_le {hay pat : Str} {start m : Nat}
    (h : jsIndexOf hay pat start = some m) : m + pat.length ≤ hay.length := by
  obtain ⟨_, hm, hpre⟩ := jsIndexOf_some h
  have := isPrefixOf_length_le hpre
  rw [List.length_drop] at this
  omega

theorem jsIndexOf_decomp {hay pat : Str} {start m : Nat}
    (h : jsIndexOf hay pat start = some m) :
    hay = hay.take m ++ pat ++ hay.drop (m + pat.length) := by
  obtain ⟨_, hm, hpre⟩ := jsIndexOf_some h
  have hd := isPrefixOf_eq_append pat (hay.drop m) hpre
  conv_lhs => rw [← List.take_append_drop m hay, hd]
  rw [List.drop_drop, List.append_assoc]

theorem jsIndexOf_nil_of_ne {pat : Str} (h : pat ≠ []) (start : Nat) :
    jsIndexOf [] pat start = none := by
  match pat, h with
  | a :: p, _ =>
    simp [jsIndexOf, List.range_succ, List.range_zero, List.isPrefixOf]

/-! ### Locating the start and end leaves in the node map -/

theorem exists_start_index : ∀ (leaves : List Str) (ms : Nat),
    ms < prefixLen leaves leaves.length →
    ∃ k, k < leaves.length ∧ prefixLen leaves k ≤ ms ∧ ms < prefixLen leaves (k + 1)
  | [], ms, h => by simp [prefixLen_nil] at h
  | t :: ts, ms, h => by
    by_cases hlt : ms < t.length
    · exact ⟨0, Nat.succ_pos _, Nat.zero_le _, by rw [prefixLen_cons_one]; exact hlt⟩
    · push_neg at hlt
      have hms : ms - t.length < prefixLen ts ts.length := by
        rw [List.length_cons, prefixLen_cons_succ] at h
        omega
      obtain ⟨k, hk, h1, h2⟩ := exists_start_index ts (ms - t.length) hms
      refine ⟨k + 1, by simpa using hk, ?_, ?_⟩
      · rw [prefixLen_cons_succ]; omega
      · rw [prefixLen_cons_succ]; omega

theorem exists_end_index (leaves : List Str) (me : Nat) (h0 : 0 < me)
    (h : me ≤ prefixLen leaves leaves.length) :
    ∃ k, k < leaves.length ∧ prefixLen leaves k < me ∧ me ≤ prefixLen leaves (k + 1) := by
  obtain ⟨k, hk, h1, h2⟩ := exists_start_index leaves (me - 1) (by omega)
  exact ⟨k, hk, by omega, by omega⟩

theorem find?_start_entry : ∀ (leaves : List Str) (c i k ms : Nat),
    k < leaves.length → c + prefixLen leaves k ≤ ms → ms < c + prefixLen leaves (k + 1) →
    (buildNodeMapAux leaves c i).find?
        (fun m => decide (m.start ≤ ms) && decide (ms < m.stop)) =
      some ⟨c + prefixLen leaves k, c + prefixLen leaves (k + 1), i + k⟩
  | [], c, i, k, ms, hk, _, _ => by simp at hk
  | t :: ts, c, i, 0, ms, hk, h1, h2 => by
    rw [prefixLen_zero, Nat.add_zero] at h1
    rw [prefixLen_cons_one] at h2
    rw [buildNodeMapAux, List.find?_cons_of_pos]
    · simp [prefixLen_zero, prefixLen_cons_one]
    · simp only [Bool.and_eq_true, decide_eq_true_iff]
      exact ⟨h1, h2⟩
  | t :: ts, c, i, k + 1, ms, hk, h1, h2 => by
    rw [prefixLen_cons_succ] at h1
    rw [prefixLen_cons_succ] at h2
    have hge : c + t.length ≤ ms := by
      have := prefixLen_le ts (Nat.zero_le k)
      rw [prefixLen_zero] at this
      omega
    rw [buildNodeMapAux, List.find?_cons_of_neg]
    · have := find?_start_entry ts (c + t.length) (i + 1) k ms (by simpa using hk)
        (by omega) (by omega)
      rw [this]
      simp only [Option.some.injEq, MapEntry.mk.injEq, prefixLen_cons_succ]
      omega
    · simp only [Bool.and_eq_true, decide_eq_true_iff, not_and]
      intro _
      omega

theorem find?_end_entry : ∀ (leaves : List Str) (c i k me : Nat),
    k < leaves.length → c + prefixLen leaves k < me → me ≤ c + prefixLen leaves (k + 1) →
    (buildNodeMapAux leaves c i).find?
        (fun m => decide (m.start < me) && decide (me ≤ m.stop)) =
      some ⟨c + prefixLen leaves k, c + prefixLen leaves (k + 1), i + k⟩
  | [], c, i, k, me, hk, _, _ => by simp at hk
  | t :: ts, c, i, 0, me, hk, h1, h2 => by
    rw [prefixLen_zero, Nat.add_zero] at h1
    rw [prefixLen_cons_one] at h2
    rw [buildNodeMapAux, List.find?_cons_of_pos]
    · simp [prefixLen_zero, prefixLen_cons_one]
    · simp only [Bool.and_eq_true, decide_eq_true_iff]
      exact ⟨h1, h2⟩
  | t :: ts, c, i, k + 1, me, hk, h1, h2 => by
    rw [prefixLen_cons_succ] at h1
    rw [prefixLen_cons_succ] at h2
    have hge : c + t.length < me := by
      have := prefixLen_le ts (Nat.zero_le k)
      rw [prefixLen_zero] at this
      omega
    rw [buildNodeMapAux, List.find?_cons_of_neg]
    · have := find?_end_entry ts (c + t.length) (i + 1) k me (by simpa using hk)
        (by omega) (by omega)
      rw [this]
      simp only [Option.some.injEq, MapEntry.mk.injEq, prefixLen_cons_succ]
      omega
    · simp only [Bool.and_eq_true, decide_eq_true_iff, not_and]
      intro _
      omega

/-! ### Closed forms for the splice -/

theorem set_eq_take_cons_drop (l : List Str) {n : Nat} (x : Str) (h : n < l.length) :
    l.set n x = l.take n ++ x :: l.drop (n + 1) := by
  rw [List.set_eq_take_append_cons_drop, if_pos h]

theorem set_at_boundary (P : List Str) (q : Str) (R : List Str) (x : Str) :
    (P ++ q :: R).set P.length x = P ++ x :: R := by
  rw [List.set_append_right _ _ (Nat.le_refl _), Nat.sub_self]
  rfl

theorem fold_clear_region : ∀ (M P S : List Str),
    ((List.range' P.length M.length).foldl (fun ls i => updateNodeText ls i []) (P ++ M ++ S))
      = P ++ List.replicate M.length [] ++ S
  | [], P, S => by simp [List.range']
  | q :: M, P, S => by
    rw [List.length_cons, List.range'_succ, List.foldl_cons]
    have hstep : updateNodeText (P ++ (q :: M) ++ S) P.length [] = (P ++ [[]]) ++ M ++ S := by
      show (P ++ (q :: M) ++ S).set P.length [] = (P ++ [[]]) ++ M ++ S
      have e1 : P ++ (q :: M) ++ S = P ++ q :: (M ++ S) := by simp
      have e2 : (P ++ [[]]) ++ M ++ S = P ++ [] :: (M ++ S) := by simp
      rw [e1, e2, set_at_boundary]
    rw [hstep]
    have := fold_clear_region M (P ++ [[]]) S
    rw [List.length_append, List.length_cons, List.length_nil] at this
    rw [this]
    simp [List.replicate_succ]

theorem applyReplacement_single (leaves : List Str) {k ms me : Nat} (r : Str)
    (hk : k < leaves.length)
    (h1 : prefixLen leaves k ≤ ms) (h2 : ms < prefixLen leaves (k + 1))
    (h3 : prefixLen leaves k < me) (h4 : me ≤ prefixLen leaves (k + 1)) :
    applyReplacement leaves (buildNodeMapAux leaves 0 0) ms me r =
      leaves.set k ((leaves.getD k []).take (ms - prefixLen leaves k) ++ r ++
        (leaves.getD k []).drop (me - prefixLen leaves k)) := by
  have hs := find?_start_entry leaves 0 0 k ms hk (by omega) (by omega)
  have he := find?_end_entry leaves 0 0 k me hk (by omega) (by omega)
  rw [Nat.zero_add, Nat.zero_add, Nat.zero_add] at hs he
  unfold applyReplacement
  rw [hs, he]
  simp only [if_pos rfl]
  rfl

theorem applyReplacement_multi (leaves : List Str) {s e ms me : Nat} (r : Str)
    (hse : s < e) (he : e < leaves.length)
    (h1 : prefixLen leaves s ≤ ms) (h2 : ms < prefixLen leaves (s + 1))
    (h3 : prefixLen leaves e < me) (h4 : me ≤ prefixLen leaves (e + 1)) :
    applyReplacement leaves (buildNodeMapAux leaves 0 0) ms me r =
      leaves.take s ++ ((leaves.getD s []).take (ms - prefixLen leaves s) ++ r) ::
        (List.replicate (e - (s + 1)) [] ++
          ((leaves.getD e []).drop (me - prefixLen leaves e)) :: leaves.drop (e + 1)) := by
  have hs : s < leaves.length := lt_trans hse he
  have hfs := find?_start_entry leaves 0 0 s ms hs (by omega) (by omega)
  have hfe := find?_end_entry leaves 0 0 e me he (by omega) (by omega)
  rw [Nat.zero_add, Nat.zero_add, Nat.zero_add] at hfs hfe
  unfold applyReplacement
  rw [hfs, hfe]
  simp only [if_neg (by omega : ¬ s = e)]
  set newS := (leaves.getD s []).take (ms - prefixLen leaves s) ++ r with hnewS
  set newE := (leaves.getD e []).drop (me - prefixLen leaves e) with hnewE
  show (List.range' (s + 1) (e - (s + 1))).foldl (fun ls i => updateNodeText ls i [])
      (updateNodeText (updateNodeText leaves s newS) e newE) = _
  have hl1 : updateNodeText leaves s newS = leaves.take s ++ newS :: leaves.drop (s + 1) := by
    show leaves.set s newS = _
    exact set_eq_take_cons_drop leaves newS hs
  have hlen_take : (leaves.take s).length = s := List.length_take_of_le (Nat.le_of_lt hs)
  have hl2 : updateNodeText (updateNodeText leaves s newS) e newE =
      (leaves.take s ++ [newS]) ++
        ((leaves.drop (s + 1)).take (e - (s + 1)) ++ newE :: leaves.drop (e + 1)) := by
    show (updateNodeText leaves s newS).set e newE = _
    rw [hl1, List.append_cons]
    rw [List.set_append_right _ _ (by rw [List.length_append, hlen_take]; simpa using hse)]
    have hel : e - (leaves.take s ++ [newS]).length = e - (s + 1) := by
      rw [List.length_append, hlen_take]
      rfl
    rw [hel]
    have hdl : e - (s + 1) < (leaves.drop (s + 1)).length := by
      rw [List.length_drop]
      omega
    rw [set_eq_take_cons_drop _ newE hdl]
    have hdd : (leaves.drop (s + 1)).drop (e - (s + 1) + 1) = leaves.drop (e + 1) := by
      rw [List.drop_drop]
      congr 1
      omega
    rw [hdd]
  rw [hl2]
  have hM : ((leaves.drop (s + 1)).take (e - (s + 1))).length = e - (s + 1) := by
    rw [List.length_take_of_le]
    rw [List.length_drop]
    omega
  have hP : (leaves.take s ++ [newS]).length = s + 1 := by
    rw [List.length_append, hlen_take]
    rfl
  have hfold := fold_clear_region ((leaves.drop (s + 1)).take (e - (s + 1)))
    (leaves.take s ++ [newS]) (newE :: leaves.drop (e + 1))
  rw [hP, hM] at hfold
  rw [← List.append_assoc, hfold]
  simp

/-- Flattening a block of emptied leaves contributes nothing. -/
theorem flatten_replicate_nil : ∀ n : Nat, (List.replicate n ([] : Str)).flatten = []
  | 0 => rfl
  | n + 1 => by rw [List.replicate_succ, List.flatten_cons, flatten_replicate_nil n]; rfl

/-- Main splice correctness: on a node map freshly built from the leaves,
`applyReplacement` of the span `[ms, me)` rewrites the virtual text to
`take ms ++ replacement ++ drop me`. -/
theorem applyReplacement_flatten (leaves : List Str) {ms me : Nat} (r : Str)
    (hlt : ms < me) (hle : me ≤ leaves.flatten.length) :
    (applyReplacement leaves (buildNodeMapAux leaves 0 0) ms me r).flatten =
      leaves.flatten.take ms ++ r ++ leaves.flatten.drop me := by
  have htot : prefixLen leaves leaves.length = leaves.flatten.length := prefixLen_length leaves
  obtain ⟨s, hsl, hs1, hs2⟩ := exists_start_index leaves ms (by omega)
  obtain ⟨e, hel, he1, he2⟩ := exists_end_index leaves me (by omega) (by omega)
  have hse : s ≤ e := by
    by_contra hcon
    push_neg at hcon
    have : prefixLen leaves (e + 1) ≤ prefixLen leaves s := prefixLen_le leaves hcon
    omega
  have htake := take_flatten_of_between leaves hsl hs1 (by omega)
  have hdrop := drop_flatten_of_between leaves hel (by omega) he2
  rcases Nat.eq_or_lt_of_le hse with heq | hslt
  · subst heq
    rw [applyReplacement_single leaves r hsl hs1 hs2 (by omega) (by omega)]
    rw [set_eq_take_cons_drop _ _ hsl, List.flatten_append, List.flatten_cons]
    rw [htake, hdrop]
    simp [List.append_assoc]
  · rw [applyReplacement_multi leaves r hslt hel hs1 hs2 he1 he2]
    rw [List.flatten_append, List.flatten_cons, List.flatten_append, List.flatten_cons]
    rw [flatten_replicate_nil, htake, hdrop]
    simp [List.append_assoc]

/-! ### Unfolding the loop one iteration at a time -/

theorem frRun_cons_none (leaves : List Str) (slot : SlotReplacement)
    (rest : List SlotReplacement) (c k : Nat)
    (h : jsIndexOf leaves.flatten slot.originalText c = none) :
    frRun leaves (slot :: rest) c k = frRun leaves rest c k := by
  rw [frRun]
  show (match jsIndexOf leaves.flatten slot.originalText c with
        | none => frRun leaves rest c k
        | some matchIndex => _) = _
  rw [h]

theorem frRun_cons_noop (leaves : List Str) (slot : SlotReplacement)
    (rest : List SlotReplacement) (c k m : Nat)
    (hm : jsIndexOf leaves.flatten slot.originalText c = some m)
    (hnoop : slot.originalText = slot.filledValue) :
    frRun leaves (slot :: rest) c k =
      frRun leaves rest (m + slot.originalText.length) k := by
  rw [frRun]
  show (match jsIndexOf leaves.flatten slot.originalText c with
        | none => frRun leaves rest c k
        | some matchIndex =>
          if slot.originalText ≠ slot.filledValue then
            frRun (applyReplacement leaves (buildNodeMapAux leaves 0 0) matchIndex
                (matchIndex + slot.originalText.length) slot.filledValue)
              rest (matchIndex + slot.originalText.length) (k + 1)
          else frRun leaves rest (matchIndex + slot.originalText.length) k) = _
  rw [hm]
  simp [hnoop]

theorem frRun_cons_replace (leaves : List Str) (slot : SlotReplacement)
    (rest : List SlotReplacement) (c k m : Nat)
    (hm : jsIndexOf leaves.flatten slot.originalText c = some m)
    (hdiff : slot.originalText ≠ slot.filledValue) :
    frRun leaves (slot :: rest) c k =
      frRun (applyReplacement leaves (buildNodeMapAux leaves 0 0) m
          (m + slot.originalText.length) slot.filledValue)
        rest (m + slot.originalText.length) (k + 1) := by
  rw [frRun]
  show (match jsIndexOf leaves.flatten slot.originalText c with
        | none => frRun leaves rest c k
        | some matchIndex =>
          if slot.originalText ≠ slot.filledValue then
            frRun (applyReplacement leaves (buildNodeMapAux leaves 0 0) matchIndex
                (matchIndex + slot.originalText.length) slot.filledValue)
              rest (matchIndex + slot.originalText.length) (k + 1)
          else frRun leaves rest (matchIndex + slot.originalText.length) k) = _
  rw [hm]
  simp [hdiff]

theorem frTrace_cons_none (leaves : List Str) (slot : SlotReplacement)
    (rest : List SlotReplacement) (c : Nat)
    (h : jsIndexOf leaves.flatten slot.originalText c = none) :
    frTrace leaves (slot :: rest) c = none :: frTrace leaves rest c := by
  rw [frTrace]
  show (match jsIndexOf leaves.flatten slot.originalText c with
        | none => none :: frTrace leaves rest c
        | some matchIndex => _) = _
  rw [h]

theorem frTrace_cons_noop (leaves : List Str) (slot : SlotReplacement)
    (rest : List SlotReplacement) (c m : Nat)
    (hm : jsIndexOf leaves.flatten slot.originalText c = some m)
    (hnoop : slot.originalText = slot.filledValue) :
    frTrace leaves (slot :: rest) c =
      some m :: frTrace leaves rest (m + slot.originalText.length) := by
  rw [frTrace]
  show (match jsIndexOf leaves.flatten slot.originalText c with
        | none => none :: frTrace leaves rest c
        | some matchIndex =>
          if slot.originalText ≠ slot.filledValue then
            some matchIndex ::
              frTrace (applyReplacement leaves (buildNodeMapAux leaves 0 0) matchIndex
                  (matchIndex + slot.originalText.length) slot.filledValue)
                rest (matchIndex + slot.originalText.length)
          else some matchIndex :: frTrace leaves rest (matchIndex + slot.originalText.length)) = _
  rw [hm]
  simp [hnoop]

theorem frTrace_cons_replace (leaves : List Str) (slot : SlotReplacement)
    (rest : List SlotReplacement) (c m : Nat)
    (hm : jsIndexOf leaves.flatten slot.originalText c = some m)
    (hdiff : slot.originalText ≠ slot.filledValue) :
    frTrace leaves (slot :: rest) c =
      some m :: frTrace (applyReplacement leaves (buildNodeMapAux leaves 0 0) m
          (m + slot.originalText.length) slot.filledValue)
        rest (m + slot.originalText.length) := by
  rw [frTrace]
  show (match jsIndexOf leaves.flatten slot.originalText c with
        | none => none :: frTrace leaves rest c
        | some matchIndex =>
          if slot.originalText ≠ slot.filledValue then
            some matchIndex ::
              frTrace (applyReplacement leaves (buildNodeMapAux leaves 0 0) matchIndex
                  (matchIndex + slot.originalText.length) slot.filledValue)
                rest (matchIndex + slot.originalText.length)
          else some matchIndex :: frTrace leaves rest (matchIndex + slot.originalText.length)) = _
  rw [hm]
  simp [hdiff]

theorem acc_cons_none (leaves : List Str) (slot : SlotReplacement)
    (rest : List SlotReplacement) (c : Nat)
    (h : jsIndexOf leaves.flatten slot.originalText c = none) :
    actualChangeCount leaves (slot :: rest) c = actualChangeCount leaves rest c := by
  rw [actualChangeCount]
  show (match jsIndexOf leaves.flatten slot.originalText c with
        | none => actualChangeCount leaves rest c
        | some matchIndex => _) = _
  rw [h]

theorem acc_cons_noop (leaves : List Str) (slot : SlotReplacement)
    (rest : List SlotReplacement) (c m : Nat)
    (hm : jsIndexOf leaves.flatten slot.originalText c = some m)
    (hnoop : slot.originalText = slot.filledValue) :
    actualChangeCount leaves (slot :: rest) c =
      actualChangeCount leaves rest (m + slot.originalText.length) := by
  rw [actualChangeCount]
  show (match jsIndexOf leaves.flatten slot.originalText c with
        | none => actualChangeCount leaves rest c
        | some matchIndex =>
          if slot.originalText ≠ slot.filledValue then
            (if (applyReplacement leaves (buildNodeMapAux leaves 0 0) matchIndex
                  (matchIndex + slot.originalText.length) slot.filledValue).flatten ≠
                leaves.flatten then 1 else 0) +
              actualChangeCount (applyReplacement leaves (buildNodeMapAux leaves 0 0) matchIndex
                  (matchIndex + slot.originalText.length) slot.filledValue)
                rest (matchIndex + slot.originalText.length)
          else actualChangeCount leaves rest (matchIndex + slot.originalText.length)) = _
  rw [hm]
  simp [hnoop]

theorem acc_cons_replace (leaves : List Str) (slot : SlotReplacement)
    (rest : List SlotReplacement) (c m : Nat)
    (hm : jsIndexOf leaves.flatten slot.originalText c = some m)
    (hdiff : ¬ slot.originalText = slot.filledValue) :
    actualChangeCount leaves (slot :: rest) c =
      (if (applyReplacement leaves (buildNodeMapAux leaves 0 0) m
            (m + slot.originalText.length) slot.filledValue).flatten ≠
          leaves.flatten then 1 else 0) +
        actualChangeCount (applyReplacement leaves (buildNodeMapAux leaves 0 0) m
            (m + slot.originalText.length) slot.filledValue)
          rest (m + slot.originalText.length) := by
  rw [actualChangeCount]
  show (match jsIndexOf leaves.flatten slot.originalText c with
        | none => actualChangeCount leaves rest c
        | some matchIndex =>
          if slot.originalText ≠ slot.filledValue then
            (if (applyReplacement leaves (buildNodeMapAux leaves 0 0) matchIndex
                  (matchIndex + slot.originalText.length) slot.filledValue).flatten ≠
                leaves.flatten then 1 else 0) +
              actualChangeCount (applyReplacement leaves (buildNodeMapAux leaves 0 0) matchIndex
                  (matchIndex + slot.originalText.length) slot.filledValue)
                rest (matchIndex + slot.originalText.length)
          else actualChangeCount leaves rest (matchIndex + slot.originalText.length)) = _
  rw [hm]
  simp [hdiff]

/-- When the matched text is nonempty and differs from the filled value,
the splice genuinely changes the virtual text. -/
theorem replace_changes_flatten (leaves : List Str) (slot : SlotReplacement) {c m : Nat}
    (hm : jsIndexOf leaves.flatten slot.originalText c = some m)
    (hne : slot.originalText ≠ [])
    (hdiff : ¬ slot.originalText = slot.filledValue) :
    ¬ ((applyReplacement leaves (buildNodeMapAux leaves 0 0) m
        (m + slot.originalText.length) slot.filledValue).flatten = leaves.flatten) := by
  have hme : m + slot.originalText.length ≤ leaves.flatten.length := jsIndexOf_matchEnd_le hm
  have hlt : m < m + slot.originalText.length := by
    have : slot.originalText.length ≠ 0 := by simpa [List.length_eq_zero] using hne
    omega
  have hfl := applyReplacement_flatten leaves slot.filledValue hlt hme
  have hdec := jsIndexOf_decomp hm
  intro hEq
  rw [hfl] at hEq
  conv at hEq => rhs; rw [hdec]
  have h2 := List.append_cancel_right hEq
  have h3 := List.append_cancel_left h2
  exact hdiff h3.symm

/-- The returned count of the loop equals the number of requests whose step
actually changed the virtual text, provided all requested originals are
nonempty. -/
theorem frRun_count : ∀ (slots : List SlotReplacement) (leaves : List Str) (c k : Nat),
    (∀ s ∈ slots, s.originalText ≠ []) →
    (frRun leaves slots c k).2 = k + actualChangeCount leaves slots c
  | [], leaves, c, k, _ => by simp [frRun, actualChangeCount]
  | slot :: rest, leaves, c, k, hne => by
    have hhd : slot.originalText ≠ [] := hne slot (List.mem_cons_self _ _)
    have htl : ∀ s ∈ rest, s.originalText ≠ [] := fun s hs => hne s (List.mem_cons_of_mem _ hs)
    cases hidx : jsIndexOf leaves.flatten slot.originalText c with
    | none =>
      rw [frRun_cons_none _ _ _ _ _ hidx, acc_cons_none _ _ _ _ hidx]
      exact frRun_count rest leaves c k htl
    | some m =>
      by_cases hdiff : slot.originalText = slot.filledValue
      · rw [frRun_cons_noop _ _ _ _ _ _ hidx hdiff, acc_cons_noop _ _ _ _ _ hidx hdiff]
        exact frRun_count rest leaves _ k htl
      · rw [frRun_cons_replace _ _ _ _ _ _ hidx hdiff, acc_cons_replace _ _ _ _ _ hidx hdiff]
        rw [if_pos (replace_changes_flatten leaves slot hidx hhd hdiff)]
        rw [frRun_count rest _ _ (k + 1) htl]
        omega

theorem chain_le_cons {m : Nat} {l : List Nat} (hl : List.Chain' (fun a b => a ≤ b) l)
    (hall : ∀ x ∈ l, m ≤ x) : List.Chain' (fun a b => a ≤ b) (m :: l) := by
  rw [List.chain'_cons']
  refine ⟨?_, hl⟩
  intro y hy
  cases l with
  | nil => simp at hy
  | cons a t =>
    simp only [List.head?_cons, Option.mem_def, Option.some.injEq] at hy
    subst hy
    exact hall _ (List.mem_cons_self _ _)

/-- Found match offsets are non-decreasing across successive requests and
bounded below by the clamped initial cursor, for request lists whose
original texts are all nonempty. -/
theorem frTrace_mono : ∀ (slots : List SlotReplacement) (leaves : List Str) (c : Nat),
    (∀ s ∈ slots, s.originalText ≠ []) →
    List.Chain' (fun a b => a ≤ b) ((frTrace leaves slots c).filterMap id) ∧
    ∀ x ∈ (frTrace leaves slots c).filterMap id, min c leaves.flatten.length ≤ x
  | [], leaves, c, _ => by simp [frTrace]
  | slot :: rest, leaves, c, hne => by
    have hhd : slot.originalText ≠ [] := hne slot (List.mem_cons_self _ _)
    have htl : ∀ s ∈ rest, s.originalText ≠ [] := fun s hs => hne s (List.mem_cons_of_mem _ hs)
    cases hidx : jsIndexOf leaves.flatten slot.originalText c with
    | none =>
      rw [frTrace_cons_none _ _ _ _ hidx]
      simpa using frTrace_mono rest leaves c htl
    | some m =>
      obtain ⟨hmin, hmlen, _⟩ := jsIndexOf_some hidx
      have hme : m + slot.originalText.length ≤ leaves.flatten.length :=
        jsIndexOf_matchEnd_le hidx
      by_cases hdiff : slot.originalText = slot.filledValue
      · rw [frTrace_cons_noop _ _ _ _ _ hidx hdiff]
        obtain ⟨ihc, ihb⟩ := frTrace_mono rest leaves (m + slot.originalText.length) htl
        have hmin2 : m ≤ min (m + slot.originalText.length) leaves.flatten.length := by omega
        simp only [List.filterMap_cons, id]
        refine ⟨chain_le_cons ihc (fun x hx => le_trans hmin2 (ihb x hx)), ?_⟩
        intro x hx
        rcases List.mem_cons.mp hx with rfl | hx
        · exact hmin
        · exact le_trans hmin (le_trans hmin2 (ihb x hx))
      · rw [frTrace_cons_replace _ _ _ _ _ hidx hdiff]
        set leaves2 := applyReplacement leaves (buildNodeMapAux leaves 0 0) m
          (m + slot.originalText.length) slot.filledValue with hl2
        have hlt : m < m + slot.originalText.length := by
          have : slot.originalText.length ≠ 0 := by simpa [List.length_eq_zero] using hhd
          omega
        have hfl := applyReplacement_flatten leaves slot.filledValue hlt hme
        have hlen2 : m ≤ leaves2.flatten.length := by
          rw [hl2, hfl, List.length_append, List.length_append, List.length_take,
            min_eq_left (by omega : m ≤ leaves.flatten.length)]
          omega
        obtain ⟨ihc, ihb⟩ := frTrace_mono rest leaves2 (m + slot.originalText.length) htl
        have hmin2 : m ≤ min (m + slot.originalText.length) leaves2.flatten.length := by omega
        simp only [List.filterMap_cons, id]
        refine ⟨chain_le_cons ihc (fun x hx => le_trans hmin2 (ihb x hx)), ?_⟩
        intro x hx
        rcases List.mem_cons.mp hx with rfl | hx
        · exact hmin
        · exact le_trans hmin (le_trans hmin2 (ihb x hx))

/-! ### Per-iteration facts about the loop state -/

theorem frStep_cons_none (leaves : List Str) (slot : SlotReplacement)
    (rest : List SlotReplacement) (c k : Nat)
    (h : jsIndexOf leaves.flatten slot.originalText c = none) :
    frStep ⟨leaves, slot :: rest, c, k⟩ = ⟨leaves, rest, c, k⟩ := by
  rw [frStep]
  show (match jsIndexOf leaves.flatten slot.originalText c with
        | none => (⟨leaves, rest, c, k⟩ : FRState)
        | some matchIndex =>
          if slot.originalText ≠ slot.filledValue then
            ⟨applyReplacement leaves (buildNodeMapAux leaves 0 0) matchIndex
              (matchIndex + slot.originalText.length) slot.filledValue,
             rest, matchIndex + slot.originalText.length, k + 1⟩
          else ⟨leaves, rest, matchIndex + slot.originalText.length, k⟩) = _
  rw [h]

theorem frStep_cons_noop (leaves : List Str) (slot : SlotReplacement)
    (rest : List SlotReplacement) (c k m : Nat)
    (hm : jsIndexOf leaves.flatten slot.originalText c = some m)
    (hnoop : slot.originalText = slot.filledValue) :
    frStep ⟨leaves, slot :: rest, c, k⟩ =
      ⟨leaves, rest, m + slot.originalText.length, k⟩ := by
  rw [frStep]
  show (match jsIndexOf leaves.flatten slot.originalText c with
        | none => (⟨leaves, rest, c, k⟩ : FRState)
        | some matchIndex =>
          if slot.originalText ≠ slot.filledValue then
            ⟨applyReplacement leaves (buildNodeMapAux leaves 0 0) matchIndex
              (matchIndex + slot.originalText.length) slot.filledValue,
             rest, matchIndex + slot.originalText.length, k + 1⟩
          else ⟨leaves, rest, matchIndex + slot.originalText.length, k⟩) = _
  rw [hm]
  simp [hnoop]

theorem frStep_cons_replace (leaves : List Str) (slot : SlotReplacement)
    (rest : List SlotReplacement) (c k m : Nat)
    (hm : jsIndexOf leaves.flatten slot.originalText c = some m)
    (hdiff : ¬ slot.originalText = slot.filledValue) :
    frStep ⟨leaves, slot :: rest, c, k⟩ =
      ⟨applyReplacement leaves (buildNodeMapAux leaves 0 0) m
        (m + slot.originalText.length) slot.filledValue,
       rest, m + slot.originalText.length, k + 1⟩ := by
  rw [frStep]
  show (match jsIndexOf leaves.flatten slot.originalText c with
        | none => (⟨leaves, rest, c, k⟩ : FRState)
        | some matchIndex =>
          if slot.originalText ≠ slot.filledValue then
            ⟨applyReplacement leaves (buildNodeMapAux leaves 0 0) matchIndex
              (matchIndex + slot.originalText.length) slot.filledValue,
             rest, matchIndex + slot.originalText.length, k + 1⟩
          else ⟨leaves, rest, matchIndex + slot.originalText.length, k⟩) = _
  rw [hm]
  simp [hdiff]

/-- Every iteration on a non-empty queue pops exactly one request. -/
theorem frStep_queue (leaves : List Str) (slot : SlotReplacement)
    (rest : List SlotReplacement) (c k : Nat) :
    (frStep ⟨leaves, slot :: rest, c, k⟩).queue = rest := by
  cases hidx : jsIndexOf leaves.flatten slot.originalText c with
  | none => rw [frStep_cons_none _ _ _ _ _ hidx]
  | some m =>
    by_cases hdiff : slot.originalText = slot.filledValue
    · rw [frStep_cons_noop _ _ _ _ _ _ hidx hdiff]
    · rw [frStep_cons_replace _ _ _ _ _ _ hidx hdiff]

theorem frStep_queue_length (s : FRState) (h : s.queue ≠ []) :
    (frStep s).queue.length + 1 = s.queue.length := by
  obtain ⟨leaves, queue, c, k⟩ := s
  cases queue with
  | nil => simp at h
  | cons slot rest =>
    show (frStep ⟨leaves, slot :: rest, c, k⟩).queue.length + 1 = (slot :: rest).length
    rw [frStep_queue]
    rfl

theorem frStep_iterate_queue : ∀ (n : Nat) (s : FRState), s.queue.length = n →
    (frStep^[n] s).queue = []
  | 0, s, h => by
    rw [Function.iterate_zero_apply]
    exact List.length_eq_zero.mp h
  | n + 1, s, h => by
    rw [Function.iterate_succ_apply]
    apply frStep_iterate_queue n
    have hne : s.queue ≠ [] := by
      intro hq
      rw [hq] at h
      simp at h
    have := frStep_queue_length s hne
    omega

theorem frRun_eq_iterate : ∀ (slots : List SlotReplacement) (leaves : List Str) (c k : Nat),
    frRun leaves slots c k =
      ((frStep^[slots.length] ⟨leaves, slots, c, k⟩).leaves,
       (frStep^[slots.length] ⟨leaves, slots, c, k⟩).replacementCount)
  | [], leaves, c, k => rfl
  | slot :: rest, leaves, c, k => by
    rw [List.length_cons, Function.iterate_succ_apply]
    cases hidx : jsIndexOf leaves.flatten slot.originalText c with
    | none =>
      rw [frRun_cons_none _ _ _ _ _ hidx, frStep_cons_none _ _ _ _ _ hidx]
      exact frRun_eq_iterate rest leaves c k
    | some m =>
      by_cases hdiff : slot.originalText = slot.filledValue
      · rw [frRun_cons_noop _ _ _ _ _ _ hidx hdiff, frStep_cons_noop _ _ _ _ _ _ hidx hdiff]
        exact frRun_eq_iterate rest leaves _ k
      · rw [frRun_cons_replace _ _ _ _ _ _ hidx hdiff,
          frStep_cons_replace _ _ _ _ _ _ hidx hdiff]
        exact frRun_eq_iterate rest _ _ _

/-! ### Zip entry update facts -/

theorem zipSet_of_any_false (z : Zip) (name data : String)
    (h : z.any (fun e => e.1 == name) = false) :
    zipSet z name data = z ++ [(name, data)] := by
  rw [zipSet, if_neg]
  simp [h]

theorem zipSet_of_any_true (z : Zip) (name data : String)
    (h : z.any (fun e => e.1 == name) = true) :
    zipSet z name data = z.map (fun e => if e.1 == name then (e.1, data) else e) := by
  rw [zipSet, if_pos]
  simp [h]

theorem zipFile_zipSet_same (name data : String) : ∀ (z : Zip),
    zipFile (zipSet z name data) name = some data
  | [] => by
    rw [zipSet_of_any_false _ _ _ (by simp)]
    simp [zipFile]
  | e :: tl => by
    by_cases he : e.1 = name
    · rw [zipSet_of_any_true _ _ _ (by simp [List.any_cons, he])]
      rw [List.map_cons, if_pos (beq_iff_eq.mpr he)]
      simp [zipFile, List.find?_cons_of_pos, beq_iff_eq.mpr he]
    · have hbe : (e.1 == name) = false := by simp [he]
      by_cases hany : tl.any (fun e => e.1 == name) = true
      · rw [zipSet_of_any_true _ _ _ (by simp [List.any_cons, hany])]
        rw [List.map_cons, if_neg (by simp [he])]
        have ih := zipFile_zipSet_same name data tl
        rw [zipSet_of_any_true _ _ _ hany] at ih
        rw [zipFile, List.find?_cons_of_neg _ (by simp [he])]
        exact ih
      · have hanyf : tl.any (fun e => e.1 == name) = false := by
          rw [← Bool.not_eq_true]
          exact hany
        rw [zipSet_of_any_false _ _ _ (by simp [List.any_cons, hbe, hanyf])]
        have ih := zipFile_zipSet_same name data tl
        rw [zipSet_of_any_false _ _ _ hanyf] at ih
        rw [List.cons_append, zipFile, List.find?_cons_of_neg _ (by simp [he])]
        exact ih

theorem zipFile_map_other (name data n2 : String) (hne : n2 ≠ name) : ∀ (z : Zip),
    zipFile (z.map (fun e => if e.1 == name then (e.1, data) else e)) n2 = zipFile z n2
  | [] => rfl
  | e :: tl => by
    rw [List.map_cons]
    have hfst : (if e.1 == name then (e.1, data) else e).1 = e.1 := by
      by_cases h : e.1 == name
      · rw [if_pos h]
      · rw [if_neg h]
    by_cases he2 : e.1 = n2
    · have hename : ¬ e.1 = name := fun h => hne (he2 ▸ h ▸ rfl)
      rw [if_neg (by simp [hename])]
      rw [zipFile, zipFile, List.find?_cons_of_pos _ (by simp [he2]),
        List.find?_cons_of_pos _ (by simp [he2])]
    · rw [zipFile, zipFile, List.find?_cons_of_neg _ (by rw [hfst]; simp [he2]),
        List.find?_cons_of_neg _ (by simp [he2])]
      exact zipFile_map_other name data n2 hne tl

theorem zipFile_append_other (name data n2 : String) (hne : n2 ≠ name) : ∀ (z : Zip),
    zipFile (z ++ [(name, data)]) n2 = zipFile z n2
  | [] => by
    simp only [List.nil_append]
    rw [zipFile, List.find?_cons_of_neg _ (by simp; exact fun h => hne h.symm)]
    rfl
  | e :: tl => by
    rw [List.cons_append]
    by_cases he2 : e.1 = n2
    · rw [zipFile, zipFile, List.find?_cons_of_pos _ (by simp [he2]),
        List.find?_cons_of_pos _ (by simp [he2])]
    · rw [zipFile, zipFile, List.find?_cons_of_neg _ (by simp [he2]),
        List.find?_cons_of_neg _ (by simp [he2])]
      exact zipFile_append_other name data n2 hne tl

theorem zipFile_zipSet_other (name data n2 : String) (hne : n2 ≠ name) (z : Zip) :
    zipFile (zipSet z name data) n2 = zipFile z n2 := by
  by_cases hany : z.any (fun e => e.1 == name) = true
  · rw [zipSet_of_any_true _ _ _ hany]
    exact zipFile_map_other name data n2 hne z
  · rw [zipSet_of_any_false _ _ _ (by rw [← Bool.not_eq_true]; exact hany)]
    exact zipFile_append_other name data n2 hne z

/-! ### Claim theorems -/

/-- C4: a request whose `filledValue` equals its `originalText`, found at or
after the cursor, mutates no leaf (the loop continues with the very same
leaf state), is not counted, sets the search cursor to the match end, and is
popped — and any later search for the same literal from the new cursor can
only find an occurrence at or after the match end. -/
theorem claim4_noop_skip (leaves : List Str) (slot : SlotReplacement)
    (rest : List SlotReplacement) (c k m : Nat)
    (hnoop : slot.filledValue = slot.originalText)
    (hm : jsIndexOf leaves.flatten slot.originalText c = some m) :
    frRun leaves (slot :: rest) c k =
      frRun leaves rest (m + slot.originalText.length) k ∧
    frStep ⟨leaves, slot :: rest, c, k⟩ =
      ⟨leaves, rest, m + slot.originalText.length, k⟩ ∧
    ∀ m2, jsIndexOf leaves.flatten slot.originalText (m + slot.originalText.length) = some m2 →
      m + slot.originalText.length ≤ m2 := by
  refine ⟨frRun_cons_noop _ _ _ _ _ _ hm hnoop.symm,
    frStep_cons_noop _ _ _ _ _ _ hm hnoop.symm, ?_⟩
  intro m2 hm2
  have h1 := (jsIndexOf_some hm2).1
  have h2 := jsIndexOf_matchEnd_le hm
  rw [min_eq_left h2] at h1
  exact h1

theorem claim4_noop_skip_witness :
    frRun [strOf "xy"] [⟨strOf "x", strOf "x"⟩] 0 0 =
      frRun [strOf "xy"] [] (0 + (strOf "x").length) 0 :=
  (claim4_noop_skip [strOf "xy"] ⟨strOf "x", strOf "x"⟩ [] 0 0 0 rfl (by decide)).1

/-- C5: a request whose `originalText` is not found at or after the cursor
is recorded as not-found in the trace and popped without advancing the
cursor, without touching any leaf and without counting, and the loop
continues with the remaining requests. -/
theorem claim5_not_found (leaves : List Str) (slot : SlotReplacement)
    (rest : List SlotReplacement) (c k : Nat)
    (h : jsIndexOf leaves.flatten slot.originalText c = none) :
    frRun leaves (slot :: rest) c k = frRun leaves rest c k ∧
    frTrace leaves (slot :: rest) c = none :: frTrace leaves rest c ∧
    frStep ⟨leaves, slot :: rest, c, k⟩ = ⟨leaves, rest, c, k⟩ :=
  ⟨frRun_cons_none _ _ _ _ _ h, frTrace_cons_none _ _ _ _ h,
    frStep_cons_none _ _ _ _ _ h⟩

theorem claim5_not_found_witness :
    frRun [strOf "ab"] [⟨strOf "zz", strOf "q"⟩] 0 0 = frRun [strOf "ab"] [] 0 0 :=
  (claim5_not_found [strOf "ab"] ⟨strOf "zz", strOf "q"⟩ [] 0 0 (by decide)).1

/-- C7: every iteration of the loop on a non-empty queue pops exactly one
request, so after exactly `N` iterations the queue is empty, and the result
of `findAndReplaceSequential` is reached within `N` iterations of the loop
body. -/
theorem claim7_termination :
    (∀ s : FRState, s.queue ≠ [] → (frStep s).queue.length + 1 = s.queue.length) ∧
    (∀ (leaves : List Str) (slots : List SlotReplacement) (c k : Nat),
      (frStep^[slots.length] ⟨leaves, slots, c, k⟩).queue = []) ∧
    (∀ (textNodes : List Str) (slots : List SlotReplacement),
      findAndReplaceSequential textNodes slots =
        ((frStep^[slots.length] ⟨textNodes, slots, 0, 0⟩).leaves,
         (frStep^[slots.length] ⟨textNodes, slots, 0, 0⟩).replacementCount)) := by
  refine ⟨frStep_queue_length, ?_, ?_⟩
  · intro leaves slots c k
    exact frStep_iterate_queue slots.length ⟨leaves, slots, c, k⟩ rfl
  · intro textNodes slots
    exact frRun_eq_iterate slots textNodes 0 0

theorem claim7_termination_witness :
    (frStep ⟨[strOf "ab"], [⟨strOf "a", strOf "b"⟩], 0, 0⟩).queue.length + 1 =
      ([⟨strOf "a", strOf "b"⟩] : List SlotReplacement).length :=
  claim7_termination.1 ⟨[strOf "ab"], [⟨strOf "a", strOf "b"⟩], 0, 0⟩ (List.cons_ne_nil _ _)

/-- C8: when the mandatory `word/document.xml` entry is missing from the
package, extraction fails with the format error and no `DocxContent` is
produced. -/
theorem claim8_missing_primary_part (parse : String → List XNode) (z : Zip)
    (h : zipFile z "word/document.xml" = none) :
    extractDocxContent parse z =
      Except.error "Invalid DOCX file (word/document.xml missing)" ∧
    ∀ c : DocxContent, extractDocxContent parse z ≠ Except.ok c := by
  have hmain : extractDocxContent parse z =
      Except.error "Invalid DOCX file (word/document.xml missing)" := by
    unfold extractDocxContent
    rw [h]
  refine ⟨hmain, ?_⟩
  intro c hc
  rw [hmain] at hc
  exact Except.noConfusion hc

theorem claim8_missing_primary_part_witness :
    extractDocxContent (fun _ => []) [] =
      Except.error "Invalid DOCX file (word/document.xml missing)" :=
  (claim8_missing_primary_part (fun _ => []) [] rfl).1

/-- C9: rebuilding writes the serialized tree exactly at the
`word/document.xml` entry and leaves the content of every other named part
of the package unchanged. -/
theorem claim9_rebuild_frame (buildXml : List XNode → String) (content : DocxContent)
    (name : String) (h : name ≠ "word/document.xml") :
    zipFile (rebuildDocx buildXml content) name = zipFile content.zip name ∧
    zipFile (rebuildDocx buildXml content) "word/document.xml" =
      some (buildXml content.json) := by
  constructor
  · exact zipFile_zipSet_other _ _ _ h content.zip
  · exact zipFile_zipSet_same _ _ content.zip

theorem claim9_rebuild_frame_witness :
    zipFile (rebuildDocx (fun _ => "<doc/>")
        ⟨[("word/styles.xml", "sty"), ("word/document.xml", "old")], [], [], [], "old"⟩)
      "word/styles.xml" =
    zipFile [("word/styles.xml", "sty"), ("word/document.xml", "old")] "word/styles.xml" :=
  (claim9_rebuild_frame (fun _ => "<doc/>")
    ⟨[("word/styles.xml", "sty"), ("word/document.xml", "old")], [], [], [], "old"⟩
    "word/styles.xml" (by decide)).1

/-- C6 counterexample: for the request `("", "X")` on the single leaf
`"a"`, the request is found (at offset 0) and is not a no-op, yet the
splice lands on no valid leaf pair, leaves the document unchanged, and the
returned count is still 1 — so the returned value is not the number of
requests that produced an actual text change (which is 0). -/
theorem claim6_counterexample :
    findAndReplaceSequential [strOf "a"] [⟨[], strOf "X"⟩] = ([strOf "a"], 1) ∧
    actualChangeCount [strOf "a"] [⟨[], strOf "X"⟩] 0 = 0 := by
  constructor
  · decide
  · decide

/-- C6 (amended to requests with nonempty `originalText`): the returned
value equals the number of requests whose processing step actually changed
the virtual text; no-op and not-found requests contribute nothing. -/
theorem claim6_count_actual_changes (textNodes : List Str)
    (slots : List SlotReplacement) (h : ∀ s ∈ slots, s.originalText ≠ []) :
    (findAndReplaceSequential textNodes slots).2 =
      actualChangeCount textNodes slots 0 := by
  have := frRun_count slots textNodes 0 0 h
  simpa [findAndReplaceSequential] using this

theorem claim6_count_actual_changes_witness :
    (findAndReplaceSequential [strOf "xa"] [⟨strOf "a", strOf "bb"⟩]).2 =
      actualChangeCount [strOf "xa"] [⟨strOf "a", strOf "bb"⟩] 0 :=
  claim6_count_actual_changes [strOf "xa"] [⟨strOf "a", strOf "bb"⟩] (by decide)

/-- On an empty leaf list every nonempty literal is not found, so the loop
returns the empty state with count 0 and a trace of not-found outcomes. -/
theorem frRun_nil_leaves : ∀ (slots : List SlotReplacement) (c k : Nat),
    (∀ s ∈ slots, s.originalText ≠ []) →
    frRun [] slots c k = ([], k) ∧
    frTrace [] slots c = List.replicate slots.length none
  | [], c, k, _ => ⟨rfl, rfl⟩
  | slot :: rest, c, k, h => by
    have hidx : jsIndexOf ([] : List Str).flatten slot.originalText c = none :=
      jsIndexOf_nil_of_ne (h slot (List.mem_cons_self _ _)) c
    have htl : ∀ s ∈ rest, s.originalText ≠ [] :=
      fun s hs => h s (List.mem_cons_of_mem _ hs)
    obtain ⟨ih1, ih2⟩ := frRun_nil_leaves rest c k htl
    refine ⟨?_, ?_⟩
    · rw [frRun_cons_none _ _ _ _ _ hidx]
      exact ih1
    · rw [frTrace_cons_none _ _ _ _ hidx, ih2]
      rfl

/-- C10 counterexample: with zero text leaves, the empty-string request
`("", "X")` is *found* (reported at offset 0, not as not-found) and counted,
so the returned change count is 1, not 0. -/
theorem claim10_counterexample :
    findAndReplaceSequential [] [⟨[], strOf "X"⟩] = ([], 1) ∧
    frTrace [] [⟨[], strOf "X"⟩] 0 = [some 0] := by
  constructor
  · decide
  · decide

/-- C10 (amended to requests with nonempty `originalText`): if the indexer
finds zero text leaves, extraction still succeeds (it is not an error), and
then every request reports a not-found outcome, the returned change count
is 0, and the document is unchanged. -/
theorem claim10_zero_leaves (parse : String → List XNode) (z : Zip) (xml : String)
    (hz : zipFile z "word/document.xml" = some xml)
    (hleaves : collectNodes (parse xml) = []) :
    (∃ content : DocxContent, extractDocxContent parse z = Except.ok content ∧
      content.textNodes = []) ∧
    ∀ slots : List SlotReplacement, (∀ s ∈ slots, s.originalText ≠ []) →
      findAndReplaceSequential [] slots = ([], 0) ∧
      frTrace [] slots 0 = List.replicate slots.length none := by
  constructor
  · refine ⟨⟨z, parse xml, collectNodes (parse xml),
      ((collectNodes (parse xml)).mapIdx fun i t =>
        ('[' :: (toString i).toList) ++ ']' :: t).flatten, xml⟩, ?_, hleaves⟩
    unfold extractDocxContent
    rw [hz]
  · intro slots hs
    exact frRun_nil_leaves slots 0 0 hs

theorem claim10_zero_leaves_witness :
    findAndReplaceSequential [] [⟨strOf "a", strOf "b"⟩] = ([], 0) :=
  (((claim10_zero_leaves (fun _ => []) [("word/document.xml", "d")] "d" rfl (by simp [collectNodes])).2)
    [⟨strOf "a", strOf "b"⟩] (by decide)).1

/-- C1: any document whose leaves concatenate to
`"Hello [Name], welcome to [Company]."`, filled with the two requests in
order, ends with leaves concatenating to `"Hello Alice, welcome to Acme."`
and a returned count of 2. -/
theorem claim1_example_a (leaves : List Str)
    (h : leaves.flatten = strOf "Hello [Name], welcome to [Company].") :
    (findAndReplaceSequential leaves
        [⟨strOf "[Name]", strOf "Alice"⟩, ⟨strOf "[Company]", strOf "Acme"⟩]).1.flatten =
      strOf "Hello Alice, welcome to Acme." ∧
    (findAndReplaceSequential leaves
        [⟨strOf "[Name]", strOf "Alice"⟩, ⟨strOf "[Company]", strOf "Acme"⟩]).2 = 2 := by
  have hd1 : (strOf "[Name]" : Str) ≠ strOf "Alice" := by decide
  have hd2 : (strOf "[Company]" : Str) ≠ strOf "Acme" := by decide
  have h1 : jsIndexOf leaves.flatten (strOf "[Name]") 0 = some 6 := by
    rw [h]
    decide
  set L2 := applyReplacement leaves (buildNodeMapAux leaves 0 0) 6
    (6 + (strOf "[Name]").length) (strOf "Alice") with hL2
  have hsp1 := applyReplacement_flatten leaves (strOf "Alice")
    (show 6 < 6 + (strOf "[Name]").length by decide)
    (show 6 + (strOf "[Name]").length ≤ leaves.flatten.length by rw [h]; decide)
  have h2 : L2.flatten = strOf "Hello Alice, welcome to [Company]." := by
    rw [hL2, hsp1, h]
    decide
  have h3 : jsIndexOf L2.flatten (strOf "[Company]") (6 + (strOf "[Name]").length)
      = some 24 := by
    rw [h2]
    decide
  set L3 := applyReplacement L2 (buildNodeMapAux L2 0 0) 24
    (24 + (strOf "[Company]").length) (strOf "Acme") with hL3
  have hsp2 := applyReplacement_flatten L2 (strOf "Acme")
    (show 24 < 24 + (strOf "[Company]").length by decide)
    (show 24 + (strOf "[Company]").length ≤ L2.flatten.length by rw [h2]; decide)
  have h4 : L3.flatten = strOf "Hello Alice, welcome to Acme." := by
    rw [hL3, hsp2, h2]
    decide
  have hrun : findAndReplaceSequential leaves
      [⟨strOf "[Name]", strOf "Alice"⟩, ⟨strOf "[Company]", strOf "Acme"⟩] = (L3, 2) := by
    show frRun leaves
      [⟨strOf "[Name]", strOf "Alice"⟩, ⟨strOf "[Company]", strOf "Acme"⟩] 0 0 = (L3, 2)
    rw [frRun_cons_replace _ _ _ _ _ _ h1 hd1, ← hL2,
      frRun_cons_replace _ _ _ _ _ _ h3 hd2, ← hL3]
    rfl
  rw [hrun, h4]
  exact ⟨rfl, rfl⟩

theorem claim1_example_a_witness :
    (findAndReplaceSequential [strOf "Hello [Name], welcome to [Company]."]
        [⟨strOf "[Name]", strOf "Alice"⟩, ⟨strOf "[Company]", strOf "Acme"⟩]).1.flatten =
      strOf "Hello Alice, welcome to Acme." :=
  (claim1_example_a [strOf "Hello [Name], welcome to [Company]."] (by decide)).1

/-- C2 counterexample: the ordered request list
`[("b","b"), ("","Q"), ("","")]` contains two requests sharing the
identical originalText `""` (which trivially occurs in the virtual text),
yet on the document `["ab","cde"]` the found match offsets are
`[1, 2, 1]` — not non-decreasing, because an empty original combined with
the cursor clamp lets the reported offset step backwards. -/
theorem claim2_counterexample :
    frTrace [strOf "ab", strOf "cde"]
        [⟨strOf "b", strOf "b"⟩, ⟨[], strOf "Q"⟩, ⟨[], []⟩] 0
      = [some 1, some 2, some 1] ∧
    ¬ List.Chain' (fun a b => a ≤ b)
        (([some 1, some 2, some 1] : List (Option Nat)).filterMap id) := by
  constructor
  · decide
  · intro hch
    have h12 : ([some 1, some 2, some 1] : List (Option Nat)).filterMap id = [1, 2, 1] := by
      decide
    rw [h12, List.chain'_cons, List.chain'_cons] at hch
    exact absurd hch.2.1 (by omega)

/-- C2 (amended to requests with nonempty `originalText`): requests sharing
an identical literal bind to successive document occurrences in order — the
duplicate-literal example yields `"A: X B: Y"` with count 2 and match
offsets 3 then 8 — and found match offsets are non-decreasing across
successive requests. -/
theorem claim2_order_preservation :
    (∀ leaves : List Str, leaves.flatten = strOf "A: ___ B: ___" →
      (findAndReplaceSequential leaves
          [⟨strOf "___", strOf "X"⟩, ⟨strOf "___", strOf "Y"⟩]).1.flatten
        = strOf "A: X B: Y" ∧
      (findAndReplaceSequential leaves
          [⟨strOf "___", strOf "X"⟩, ⟨strOf "___", strOf "Y"⟩]).2 = 2 ∧
      frTrace leaves [⟨strOf "___", strOf "X"⟩, ⟨strOf "___", strOf "Y"⟩] 0
        = [some 3, some 8]) ∧
    (∀ (leaves : List Str) (slots : List SlotReplacement) (c : Nat),
      (∀ s ∈ slots, s.originalText ≠ []) →
      List.Chain' (fun a b => a ≤ b) ((frTrace leaves slots c).filterMap id)) := by
  constructor
  · intro leaves h
    have hd1 : (strOf "___" : Str) ≠ strOf "X" := by decide
    have hd2 : (strOf "___" : Str) ≠ strOf "Y" := by decide
    have h1 : jsIndexOf leaves.flatten (strOf "___") 0 = some 3 := by
      rw [h]
      decide
    set L2 := applyReplacement leaves (buildNodeMapAux leaves 0 0) 3
      (3 + (strOf "___").length) (strOf "X") with hL2
    have hsp1 := applyReplacement_flatten leaves (strOf "X")
      (show 3 < 3 + (strOf "___").length by decide)
      (show 3 + (strOf "___").length ≤ leaves.flatten.length by rw [h]; decide)
    have h2 : L2.flatten = strOf "A: X B: ___" := by
      rw [hL2, hsp1, h]
      decide
    have h3 : jsIndexOf L2.flatten (strOf "___") (3 + (strOf "___").length) = some 8 := by
      rw [h2]
      decide
    set L3 := applyReplacement L2 (buildNodeMapAux L2 0 0) 8
      (8 + (strOf "___").length) (strOf "Y") with hL3
    have hsp2 := applyReplacement_flatten L2 (strOf "Y")
      (show 8 < 8 + (strOf "___").length by decide)
      (show 8 + (strOf "___").length ≤ L2.flatten.length by rw [h2]; decide)
    have h4 : L3.flatten = strOf "A: X B: Y" := by
      rw [hL3, hsp2, h2]
      decide
    have hrun : findAndReplaceSequential leaves
        [⟨strOf "___", strOf "X"⟩, ⟨strOf "___", strOf "Y"⟩] = (L3, 2) := by
      show frRun leaves [⟨strOf "___", strOf "X"⟩, ⟨strOf "___", strOf "Y"⟩] 0 0 = (L3, 2)
      rw [frRun_cons_replace _ _ _ _ _ _ h1 hd1, ← hL2,
        frRun_cons_replace _ _ _ _ _ _ h3 hd2, ← hL3]
      rfl
    refine ⟨by rw [hrun, h4], by rw [hrun], ?_⟩
    rw [frTrace_cons_replace _ _ _ _ _ h1 hd1, ← hL2,
      frTrace_cons_replace _ _ _ _ _ h3 hd2]
    rfl
  · intro leaves slots c hne
    exact (frTrace_mono slots leaves c hne).1

theorem claim2_order_preservation_witness :
    (findAndReplaceSequential [strOf "A: ___ B: ___"]
        [⟨strOf "___", strOf "X"⟩, ⟨strOf "___", strOf "Y"⟩]).1.flatten
      = strOf "A: X B: Y" :=
  (claim2_order_preservation.1 [strOf "A: ___ B: ___"] (by decide)).1

/-- C3: for a span covering more than one leaf, the splice sets the start
leaf to its prefix followed by the filled value, the end leaf to its suffix
only, empties every leaf strictly between, and leaves every leaf outside
the span unchanged; in particular `"Acme"/" Corp"/"oration"` filled with a
value for `"Acme Corporation"` becomes one leaf holding the value and two
empty leaves. -/
theorem claim3_multi_leaf_splice :
    (∀ (leaves : List Str) (ms me s e : Nat) (r : Str),
      s < e → e < leaves.length →
      prefixLen leaves s ≤ ms → ms < prefixLen leaves (s + 1) →
      prefixLen leaves e < me → me ≤ prefixLen leaves (e + 1) →
      applyReplacement leaves (buildNodeMapAux leaves 0 0) ms me r =
        leaves.take s ++ ((leaves.getD s []).take (ms - prefixLen leaves s) ++ r) ::
          (List.replicate (e - (s + 1)) [] ++
            ((leaves.getD e []).drop (me - prefixLen leaves e)) :: leaves.drop (e + 1))) ∧
    (∀ v : Str, v ≠ strOf "Acme Corporation" →
      findAndReplaceSequential [strOf "Acme", strOf " Corp", strOf "oration"]
          [⟨strOf "Acme Corporation", v⟩] = ([v, [], []], 1)) := by
  constructor
  · intro leaves ms me s e r h1 h2 h3 h4 h5 h6
    exact applyReplacement_multi leaves r h1 h2 h3 h4 h5 h6
  · intro v hv
    have h1 : jsIndexOf ([strOf "Acme", strOf " Corp", strOf "oration"] : List Str).flatten
        (strOf "Acme Corporation") 0 = some 0 := by decide
    have hd : (strOf "Acme Corporation" : Str) ≠ v := fun hh => hv hh.symm
    show frRun [strOf "Acme", strOf " Corp", strOf "oration"]
      [⟨strOf "Acme Corporation", v⟩] 0 0 = ([v, [], []], 1)
    rw [frRun_cons_replace _ _ _ _ _ _ h1 hd]
    have happ : applyReplacement [strOf "Acme", strOf " Corp", strOf "oration"]
        (buildNodeMapAux [strOf "Acme", strOf " Corp", strOf "oration"] 0 0) 0
        (0 + (strOf "Acme Corporation").length) v = [v, [], []] := by
      rw [applyReplacement_multi [strOf "Acme", strOf " Corp", strOf "oration"] v
        (show (0 : Nat) < 2 by decide)
        (show (2 : Nat) < ([strOf "Acme", strOf " Corp", strOf "oration"] : List Str).length
          by decide)
        (show prefixLen [strOf "Acme", strOf " Corp", strOf "oration"] 0 ≤ 0 by decide)
        (show (0 : Nat) < prefixLen [strOf "Acme", strOf " Corp", strOf "oration"] (0 + 1)
          by decide)
        (show prefixLen [strOf "Acme", strOf " Corp", strOf "oration"] 2 <
          0 + (strOf "Acme Corporation").length by decide)
        (show 0 + (strOf "Acme Corporation").length ≤
          prefixLen [strOf "Acme", strOf " Corp", strOf "oration"] (2 + 1) by decide)]
      rfl
    rw [happ]
    rfl

theorem claim3_multi_leaf_splice_witness :
    findAndReplaceSequential [strOf "Acme", strOf " Corp", strOf "oration"]
        [⟨strOf "Acme Corporation", strOf "Globex"⟩] = ([strOf "Globex", [], []], 1) :=
  claim3_multi_leaf_splice.2 (strOf "Globex") (by decide)

end DocFill
